import Mathlib

/-!
Verification of the Nexus core containers.

Shallow embedding of the two container templates of the repository:

* `TArray`    from `Engine/Source/Runtime/Core/Public/Containers/Array.h`
* `TBitArray` from `Engine/Source/Runtime/Core/Public/Containers/BitArray.h`

A `TArray` is modelled by the list of its live elements (`ArrayNum` is the
list length; slots in `[ArrayNum, ArrayMax)` are uninitialized memory in the
source and are never readable, so they carry no information) together with
its capacity `ArrayMax`.  A `TBitArray` is modelled by the list of its
backing 32-bit words (`Nat`s, kept below `2 ^ 32` by all operations that the
source performs) together with the `NumBits` / `MaxBits` counters.  The
signed `int32` size type of the source is modelled by `Nat`; all the
`Check(x >= 0)` assertions of the source then hold by typing.

The allocator is an external collaborator of the repository (spec section 1
and section 6); it is modelled abstractly below.
-/

set_option autoImplicit false

namespace Nexus

/-- Modelled from the spec: the allocator collaborator is excluded from the
repository source (spec sections 1 and 6).  It supplies the slack-growth and
slack-shrink policies as pure functions of (current length, current
capacity, element size in bytes).  Its contract, implied by spec section 6
and asserted by the source itself (`Check(ArrayMax >= ArrayNum)` inside
`TArray::ResizeShrink`), is that a computed capacity always accommodates the
live elements that were passed in. -/
structure Allocator where
  calculateSlackGrow : Nat → Nat → Nat → Nat
  calculateSlackShrink : Nat → Nat → Nat → Nat
  grow_ge : ∀ n m s, n ≤ calculateSlackGrow n m s
  shrink_ge : ∀ n m s, n ≤ calculateSlackShrink n m s

/-- A concrete allocator used to instantiate witnesses: it always allocates
exactly the requested number of elements. -/
def exactAllocator : Allocator where
  calculateSlackGrow := fun n _ _ => n
  calculateSlackShrink := fun n _ _ => n
  grow_ge := fun n _ _ => Nat.le_refl n
  shrink_ge := fun n _ _ => Nat.le_refl n

/-- `TArray<FElementType, FAllocator>`: `data` is the list of live elements
(indices `[0, ArrayNum)` of the buffer), `arrayMax` is `ArrayMax`. -/
structure TArray (α : Type) where
  data : List α
  arrayMax : Nat
deriving DecidableEq

namespace TArray

variable {α : Type}

/-- `TArray::Num()` — the number of live elements, `ArrayNum`. -/
def num (a : TArray α) : Nat := a.data.length

/-- The default constructor `TArray()`: `ArrayNum = 0`, `ArrayMax = 0`. -/
def defaultCtor : TArray α := ⟨[], 0⟩

/-- `TArray::GetSlack()`. -/
def getSlack (a : TArray α) : Nat := a.arrayMax - a.num

/-- `operator[]` with its `RangeCheck`: an in-range read returns the element,
an out-of-range read is a fatal `Check` failure, modelled by `none`. -/
def getItem (a : TArray α) (i : Nat) : Option α := a.data.get? i

/-- `TArray::Emplace(Args...)`: `AddUninitialized(1)` (which bumps `ArrayNum`
and, when the new count exceeds `ArrayMax`, recomputes `ArrayMax` through the
allocator growth policy `CalculateSlackGrow(ArrayNum, ArrayMax, sizeof(T))`),
then constructs the new element at the old count, returning that index. -/
def emplace (al : Allocator) (sz : Nat) (a : TArray α) (x : α) : TArray α × Nat :=
  let oldNum := a.data.length
  let newNum := oldNum + 1
  let newMax := if a.arrayMax < newNum then al.calculateSlackGrow newNum a.arrayMax sz else a.arrayMax
  (⟨a.data ++ [x], newMax⟩, oldNum)

/-- `TArray::Add(Item)`: `CheckAddress(&Item)` (an address-aliasing
assertion, vacuous under value semantics) followed by `Emplace(Item)`. -/
def add (al : Allocator) (sz : Nat) (a : TArray α) (x : α) : TArray α × Nat :=
  emplace al sz a x

/-- `TArray::Insert(Item, Index)`: `InsertUninitialized(Index, 1)` (bump
`ArrayNum`, grow exactly as `AddUninitialized`, relocate the tail
`[Index, OldNum)` one slot right), then construct the element in the opened
slot; returns `Index`. -/
def insert (al : Allocator) (sz : Nat) (a : TArray α) (x : α) (i : Nat) : TArray α × Nat :=
  let oldNum := a.data.length
  let newNum := oldNum + 1
  let newMax := if a.arrayMax < newNum then al.calculateSlackGrow newNum a.arrayMax sz else a.arrayMax
  (⟨a.data.take i ++ x :: a.data.drop i, newMax⟩, i)

/-- `TArray::RemoveAtImpl(Index, Count, bAllowShrinking)`: a zero `Count`
returns immediately; otherwise the `Count` elements at `Index` are
destructed, the tail is moved down by `Memmove`, `ArrayNum` is decremented
and, when shrinking is allowed, `ResizeShrink` re-derives `ArrayMax` from the
allocator shrink policy. -/
def removeAtImpl (al : Allocator) (sz : Nat) (a : TArray α) (i cnt : Nat) (allowShrink : Bool) :
    TArray α :=
  if cnt = 0 then a
  else
    { data := a.data.take i ++ a.data.drop (i + cnt),
      arrayMax :=
        if allowShrink then al.calculateSlackShrink (a.data.length - cnt) a.arrayMax sz
        else a.arrayMax }

/-- Public `TArray::RemoveAt(Index)` = `RemoveAtImpl(Index, 1, true)`. -/
def removeAt (al : Allocator) (sz : Nat) (a : TArray α) (i : Nat) : TArray α :=
  removeAtImpl al sz a i 1 true

/-- `TArray::Shrink()`: when `ArrayMax != ArrayNum`, `ResizeTo(ArrayNum)`
sets `ArrayMax := ArrayNum`; otherwise nothing happens. -/
def shrink (a : TArray α) : TArray α :=
  if a.arrayMax ≠ a.data.length then ⟨a.data, a.data.length⟩ else a

/-- `TArray::CopyToEmpty(OtherData, OtherNum, PrevMax, ExtraSlack)`:
`ArrayNum := OtherNum`; when any of `OtherNum`, `ExtraSlack`, `PrevMax` is
nonzero, `ResizeForCopy(NewNum + ExtraSlack, PrevMax)` sets
`ArrayMax := NewNum + ExtraSlack` and `ConstructItems` copies the source
range element-wise (or by `Memcpy` when bitwise-constructible — identical on
values); otherwise `ArrayMax := 0` with a null buffer. -/
def copyToEmpty (otherData : List α) (prevMax extraSlack : Nat) : TArray α :=
  if otherData.length ≠ 0 ∨ extraSlack ≠ 0 ∨ prevMax ≠ 0 then
    ⟨otherData, otherData.length + extraSlack⟩
  else ⟨otherData, 0⟩

/-- The move overload of `TArray::MoveOrCopy` (selected when
`TCanMoveTArrayPointersBetweenArrayTypes` holds, i.e. the allocators are
equal and the element types identical or bitwise-constructible): the
destination adopts the source buffer via `MoveToEmpty` and takes over
`ArrayNum`/`ArrayMax`; the source counters are zeroed, its buffer gone.
Returns (destination, source) after the operation. -/
def moveOrCopyMove (_toArray fromArray : TArray α) : TArray α × TArray α :=
  (⟨fromArray.data, fromArray.arrayMax⟩, ⟨[], 0⟩)

/-- The copy overload of `TArray::MoveOrCopy` (selected when the move
overload is not applicable): `ToArray.CopyToEmpty(FromArray.GetData(),
FromArray.Num(), PrevMax, 0)`; the source is only read.  Returns
(destination, source) after the operation. -/
def moveOrCopyCopy (_toArray fromArray : TArray α) (prevMax : Nat) : TArray α × TArray α :=
  (copyToEmpty fromArray.data prevMax 0, fromArray)

/-- `TArray::CompareItems(A, B, Count)`: both the `Memcmp` fast path (for
bytewise-comparable element types) and the per-element `==` loop compare the
first `Count` elements of the two ranges; on values both coincide with
equality of the `Count`-element prefixes. -/
def compareItems [DecidableEq α] (A B : List α) (n : Nat) : Bool :=
  decide (A.take n = B.take n)

/-- The evident intent of `TArray::operator==` (its body passes the
undeclared identifier `Count` where the member doc and the spec call for the
element count, i.e. `Num()`): equal counts and `CompareItems` over `Num()`
elements. -/
def operatorEqIntended [DecidableEq α] (a b : TArray α) : Bool :=
  a.num == b.num && compareItems a.data b.data a.num

/-- `RemoveAtImpl` with its `Check`s made explicit: with a nonzero count the
source runs `CheckInvariants()` and `Check(Index + Count <= ArrayNum)`; a
failed `Check` is a fatal diagnostic, modelled by `none`.  With `Count == 0`
nothing at all is checked or changed. -/
def removeAtImplChecked (al : Allocator) (sz : Nat) (a : TArray α) (i cnt : Nat)
    (allowShrink : Bool) : Option (TArray α) :=
  if cnt = 0 then some a
  else if a.data.length ≤ a.arrayMax ∧ i + cnt ≤ a.data.length then
    some (removeAtImpl al sz a i cnt allowShrink)
  else none

/-- `TArray::Shrink` with its `CheckInvariants()` made explicit. -/
def shrinkChecked (a : TArray α) : Option (TArray α) :=
  if a.data.length ≤ a.arrayMax then some a.shrink else none

end TArray

/-- The mutating `TArray` operations of the source (public mutators and the
assignment operators). -/
inductive ArrayMutOp (α : Type) where
  | add (x : α)
  | insert (x : α) (i : Nat)
  | removeAt (i cnt : Nat) (allowShrink : Bool)
  | shrink
  | copyAssign (other : TArray α)
  | moveAssign (other : TArray α)

/-- One mutating call on a `TArray`.  `copyAssign` is `operator=(const
TArray&)` (destruct live elements, then `CopyToEmpty` with the old
`ArrayMax` as `PrevMax`); `moveAssign` is the destination side of the
buffer-stealing `MoveOrCopy` overload. -/
def applyArrayOp {α : Type} (al : Allocator) (sz : Nat) (op : ArrayMutOp α) (a : TArray α) :
    TArray α :=
  match op with
  | .add x => (a.add al sz x).1
  | .insert x i => (a.insert al sz x i).1
  | .removeAt i cnt s => a.removeAtImpl al sz i cnt s
  | .shrink => a.shrink
  | .copyAssign other => TArray.copyToEmpty other.data a.arrayMax 0
  | .moveAssign other => ⟨other.data, other.arrayMax⟩

/-- The `Check`ed preconditions under which the source performs each
operation (a violated precondition is a fatal diagnostic, not a completed
call). -/
def arrayOpOK {α : Type} (op : ArrayMutOp α) (a : TArray α) : Prop :=
  match op with
  | .insert _ i => i ≤ a.data.length
  | .removeAt i cnt _ => i + cnt ≤ a.data.length
  | .moveAssign other => other.data.length ≤ other.arrayMax
  | _ => True

/-- `FMath::DivideAndRoundUp(Dividend, Divisor)` = `(Dividend + Divisor - 1)
/ Divisor` (external platform-math collaborator). -/
def divideAndRoundUp (dividend divisor : Nat) : Nat := (dividend + divisor - 1) / divisor

/-- Modelled from the spec: `INVALID_INDEX` is the "not found" sentinel
returned by the bit-array searches; it is declared outside the provided
source (in `CoreTypes.h`) as the all-ones `uint32`, distinct from any valid
bit index. -/
def INVALID_INDEX : Nat := 4294967295

/-- Reading bit `i` of a word buffer, as the `FBitReference` / iterator
proxies do: bind word `i / 32` and mask `1 << (i % 32)` and test
`(Data & Mask) != 0`. -/
def getBitW (ws : List Nat) (i : Nat) : Bool :=
  (ws.getD (i / 32) 0 &&& (1 <<< (i % 32))) != 0

/-- Writing bit `i` of a word buffer through an `FBitReference`:
`Data |= Mask` to set, `Data &= ~Mask` to clear (`~` on `uint32`). -/
def setBitW (ws : List Nat) (i : Nat) (b : Bool) : List Nat :=
  let w := ws.getD (i / 32) 0
  ws.set (i / 32)
    (if b then w ||| (1 <<< (i % 32)) else w &&& (0xFFFFFFFF ^^^ (1 <<< (i % 32))))

/-- `FPlatformMath::CountTrailingZeros` helper: count the trailing zero bits
of a nonzero value with explicit fuel (32 suffices for `uint32` values). -/
def ctzGo : Nat → Nat → Nat
  | 0, _ => 0
  | fuel + 1, n => if n % 2 = 1 then 0 else ctzGo fuel (n / 2) + 1

/-- `FPlatformMath::CountTrailingZeros(Value)`: 32 for zero, otherwise the
index of the lowest set bit (`__builtin_ctz`). -/
def countTrailingZeros32 (n : Nat) : Nat := if n = 0 then 32 else ctzGo 32 n

/-- Fuel-bounded floor of the base-2 logarithm, used to model
`__builtin_clz`. -/
def log2Go : Nat → Nat → Nat
  | 0, _ => 0
  | fuel + 1, n => if n < 2 then 0 else log2Go fuel (n / 2) + 1

/-- `FPlatformMath::CountLeadingZeros(Value)`: 32 for zero, otherwise
`31 - floor(log2 Value)` (`__builtin_clz` on a `uint32`). -/
def countLeadingZeros32 (n : Nat) : Nat := if n = 0 then 32 else 31 - log2Go 32 n

/-- `TBitArray<FAllocator>`: `data` is the buffer of 32-bit words (`NumDwords
= DivideAndRoundUp(MaxBits, 32)` of them in any state the source reaches),
plus the `NumBits` / `MaxBits` counters. -/
structure TBitArray where
  data : List Nat
  numBits : Nat
  maxBits : Nat
deriving DecidableEq

namespace TBitArray

/-- `TBitArray::Num()`. -/
def num (b : TBitArray) : Nat := b.numBits

/-- Reading `(*this)[i]` (also `FConstIterator::GetValue()`). -/
def getBit (b : TBitArray) (i : Nat) : Bool := getBitW b.data i

/-- `TBitArray::Realloc(PreviousNumBits)`: `ResizeAllocation` to
`MaxDwords = DivideAndRoundUp(MaxBits, 32)` words (the allocator preserves
the bytes up to the smaller size) followed by `Memzero` of every word from
`PreviousNumDwords` on. -/
def realloc (data : List Nat) (previousNumBits maxBits : Nat) : List Nat :=
  let previousNumDwords := divideAndRoundUp previousNumBits 32
  let maxDwords := divideAndRoundUp maxBits 32
  (data.take previousNumDwords ++ List.replicate (maxDwords - previousNumDwords) 0).take maxDwords

/-- `TBitArray::Empty(ExpectedNumBits)`: zero `NumBits`, round the expected
count up to whole words, and when that differs from `MaxBits` reallocate
(from zero live bits, so the whole new buffer is zeroed). -/
def empty (b : TBitArray) (expectedNumBits : Nat) : TBitArray :=
  let expected := divideAndRoundUp expectedNumBits 32 * 32
  if b.maxBits ≠ expected then
    ⟨realloc b.data 0 expected, 0, expected⟩
  else
    ⟨b.data, 0, b.maxBits⟩

/-- `TBitArray::Init(bValue, InNumBits)`: `Empty(InNumBits)`, then for a
nonzero count set `NumBits` and `Memset` the `DivideAndRoundUp(NumBits, 32)`
covering words to all-ones or all-zeros. -/
def init (b : TBitArray) (bValue : Bool) (inNumBits : Nat) : TBitArray :=
  let b1 := b.empty inNumBits
  if inNumBits ≠ 0 then
    let nd := divideAndRoundUp inNumBits 32
    ⟨List.replicate nd (if bValue then 0xFFFFFFFF else 0) ++ b1.data.drop nd, inNumBits, b1.maxBits⟩
  else b1

/-- The default constructor `TBitArray()` = `TBitArray(false, 0)`:
zero counters, then `Init(false, 0)`. -/
def defaultCtor : TBitArray := init ⟨[], 0, 0⟩ false 0

/-- `TBitArray::Reserve(Number)`: on demand exceeding `MaxBits`, ask the
allocator growth policy for a word capacity (word counts, not bit counts),
set `MaxBits` to the corresponding bit count and `Realloc(NumBits)`. -/
def reserve (al : Allocator) (b : TBitArray) (number : Nat) : TBitArray :=
  if b.maxBits < number then
    let maxDwords :=
      al.calculateSlackGrow (divideAndRoundUp number 32) (divideAndRoundUp b.maxBits 32) 4
    let newMaxBits := maxDwords * 32
    ⟨realloc b.data b.numBits newMaxBits, b.numBits, newMaxBits⟩
  else b

/-- `TBitArray::Reset()`: `Memset` the words covering the live bits to zero
and zero `NumBits`, keeping the allocation. -/
def reset (b : TBitArray) : TBitArray :=
  let nd := divideAndRoundUp b.numBits 32
  ⟨List.replicate (min nd b.data.length) 0 ++ b.data.drop nd, 0, b.maxBits⟩

/-- `TBitArray::Add(bValue)`: remember `Index = NumBits`, `Reserve(Index +
1)`, increment `NumBits`, write the bit through `(*this)[Index]` and return
`Index`. -/
def add (al : Allocator) (b : TBitArray) (bValue : Bool) : TBitArray × Nat :=
  let index := b.numBits
  let b1 := b.reserve al (index + 1)
  (⟨setBitW b1.data index bValue, index + 1, b1.maxBits⟩, index)

/-- `TBitArray::Add(Value, NumToAdd)`: `Reserve(Index + NumToAdd)`, bump
`NumBits`, then write each bit of the range through `operator[]`. -/
def addN (al : Allocator) (b : TBitArray) (value : Bool) (numToAdd : Nat) : TBitArray × Nat :=
  let index := b.numBits
  let b1 := b.reserve al (index + numToAdd)
  (⟨(List.range' index numToAdd).foldl (fun ws it => setBitW ws it value) b1.data,
    index + numToAdd, b1.maxBits⟩, index)

/-- One word update of `TBitArray::SetRange`: `|= Mask` on the set branch,
`&= ~Mask` (32-bit complement) on the clear branch. -/
def applyMaskW (bValue : Bool) (mask w : Nat) : Nat :=
  if bValue then w ||| mask else w &&& (0xFFFFFFFF ^^^ mask)

/-- `TBitArray::SetRange(Index, Num, bValue)` after its `Check`: zero `Num`
returns immediately; otherwise the start word gets the start mask, any
fully-covered interior words are bulk-filled with all-ones or zero, and the
end word gets the end mask (combined into one masked update when the range
lives in a single word). -/
def setRange (b : TBitArray) (index numToSet : Nat) (bValue : Bool) : TBitArray :=
  if numToSet = 0 then b
  else
    let startIndex := index / 32
    let count := (index + numToSet + 31) / 32 - startIndex
    let startMask := (0xFFFFFFFF <<< (index % 32)) % (2 ^ 32)
    let endMask := 0xFFFFFFFF >>> ((32 - (index + numToSet) % 32) % 32)
    let newData :=
      if count = 1 then
        b.data.set startIndex (applyMaskW bValue (startMask &&& endMask) (b.data.getD startIndex 0))
      else
        b.data.mapIdx fun j w =>
          if j = startIndex then applyMaskW bValue startMask w
          else if j = startIndex + count - 1 then applyMaskW bValue endMask w
          else if startIndex < j ∧ j < startIndex + count - 1 then
            (if bValue then 0xFFFFFFFF else 0)
          else w
    ⟨newData, b.numBits, b.maxBits⟩

/-- `TBitArray::SetRange` with its `Check(Index + Num <= NumBits)` made
explicit: a failed `Check` is a fatal diagnostic, modelled by `none`.  The
`Check` runs before the zero-count early return. -/
def setRangeChecked (b : TBitArray) (index numToSet : Nat) (bValue : Bool) : Option TBitArray :=
  if index + numToSet ≤ b.numBits then some (b.setRange index numToSet bValue) else none

/-- One step of the `TBitArray::RemoveAt` compaction loop, at read index
`readIdx` with state (words, write index): a surviving bit (outside the
removed range) is copied to the write position when the two indices differ,
and the write position advances. -/
def removeAtStep (baseIndex numBitsToRemove : Nat) (st : List Nat × Nat) (readIdx : Nat) :
    List Nat × Nat :=
  if readIdx < baseIndex ∨ baseIndex + numBitsToRemove ≤ readIdx then
    (if st.2 ≠ readIdx then setBitW st.1 st.2 (getBitW st.1 readIdx) else st.1, st.2 + 1)
  else st

/-- The full `TBitArray::RemoveAt` compaction scan: the read iterator walks
every bit index below `NumBits` in order. -/
def removeAtScan (baseIndex numBitsToRemove numBits : Nat) (ws : List Nat) : List Nat :=
  ((List.range numBits).foldl (TBitArray.removeAtStep baseIndex numBitsToRemove) (ws, 0)).1

/-- `TBitArray::RemoveAt(BaseIndex, NumBitsToRemove)` after its `Check`: when
the removed range is not a suffix, compact bit-by-bit with the two
iterators, then decrement `NumBits`; a suffix removal only decrements
`NumBits`. -/
def removeAt (b : TBitArray) (baseIndex numBitsToRemove : Nat) : TBitArray :=
  if baseIndex + numBitsToRemove ≠ b.numBits then
    ⟨removeAtScan baseIndex numBitsToRemove b.numBits b.data, b.numBits - numBitsToRemove,
      b.maxBits⟩
  else
    ⟨b.data, b.numBits - numBitsToRemove, b.maxBits⟩

/-- `TBitArray::Find(bValue)`: scan whole words for one differing from the
all-absent pattern (`0` when searching a set bit, all-ones when searching a
clear bit), locate the bit with `CountTrailingZeros` on the raw or
complemented word, and reject hits at or beyond `NumBits`. -/
def find (b : TBitArray) (bValue : Bool) : Nat :=
  let test := if bValue then 0 else 0xFFFFFFFF
  let dwordCount := divideAndRoundUp b.numBits 32
  match (List.range dwordCount).find? (fun i => b.data.getD i 0 != test) with
  | none => INVALID_INDEX
  | some dwordIndex =>
    let bits := if bValue then b.data.getD dwordIndex 0 else 0xFFFFFFFF ^^^ b.data.getD dwordIndex 0
    let lowestBitIndex := countTrailingZeros32 bits + (dwordIndex <<< 5)
    if lowestBitIndex < b.numBits then lowestBitIndex else INVALID_INDEX

/-- The backwards word loop of `TBitArray::FindLast`: starting above word
`dwordIndex` with the slack-masked first mask, step down until a word
differs from the test pattern under the current mask; after the first word
the mask is all ones.  Returns the word index and the mask at the break. -/
def findLastLoop (ws : List Nat) (test : Nat) : Nat → Nat → Option (Nat × Nat)
  | 0, _ => none
  | dwordIndex + 1, mask =>
    if (ws.getD dwordIndex 0 &&& mask) != (test &&& mask) then some (dwordIndex, mask)
    else findLastLoop ws test dwordIndex 0xFFFFFFFF

/-- `TBitArray::FindLast(bValue)`: mask off the slack bits of the last
(partial) word (`SlackIndex = ((NumBits - 1) % 32) + 1` in `uint32`
arithmetic), walk words backwards, then locate the top matching bit with
`CountLeadingZeros`. -/
def findLast (b : TBitArray) (bValue : Bool) : Nat :=
  let slackIndex := ((b.numBits + 4294967295) % (2 ^ 32)) % 32 + 1
  let mask := 0xFFFFFFFF >>> (32 - slackIndex)
  let dwordIndex := divideAndRoundUp b.numBits 32
  let test := if bValue then 0 else 0xFFFFFFFF
  match findLastLoop b.data test dwordIndex mask with
  | none => INVALID_INDEX
  | some (d, m) =>
    let bits := (if bValue then b.data.getD d 0 else 0xFFFFFFFF ^^^ b.data.getD d 0) &&& m
    let bitIndex := 31 - countLeadingZeros32 bits
    bitIndex + (d <<< 5)

/-- `TBitArray::Contains(bValue)` = `Find(bValue) != INVALID_INDEX`. -/
def contains (b : TBitArray) (bValue : Bool) : Bool :=
  b.find bValue != INVALID_INDEX

/-- The move overload of `TBitArray::MoveOrCopy` (selected when the
allocator `SupportsMove`): the destination adopts the buffer via
`MoveToEmpty` and the counters; the source counters are zeroed.  Returns
(destination, source) after the operation. -/
def moveOrCopyMove (_toArray fromArray : TBitArray) : TBitArray × TBitArray :=
  (⟨fromArray.data, fromArray.numBits, fromArray.maxBits⟩, ⟨[], 0, 0⟩)

/-- `TBitArray::operator=(const TBitArray&)` (on distinct objects):
`Empty(Copy.Num())`, take over `NumBits`, and for a nonzero count `Memcpy`
`DivideAndRoundUp(MaxBits, 32)` words from the source buffer. -/
def copyAssign (b copySrc : TBitArray) : TBitArray :=
  let b1 := b.empty copySrc.numBits
  if copySrc.numBits ≠ 0 then
    let nd := divideAndRoundUp b1.maxBits 32
    ⟨copySrc.data.take nd ++ b1.data.drop nd, copySrc.numBits, b1.maxBits⟩
  else ⟨b1.data, copySrc.numBits, b1.maxBits⟩

end TBitArray

/-- The mutating `TBitArray` operations of the source. -/
inductive BitMutOp where
  | init (v : Bool) (n : Nat)
  | empty (n : Nat)
  | reserve (n : Nat)
  | reset
  | add (v : Bool)
  | addN (v : Bool) (n : Nat)
  | setRange (i n : Nat) (v : Bool)
  | removeAt (i cnt : Nat)
  | copyAssign (other : TBitArray)
  | moveAssign (other : TBitArray)

/-- One mutating call on a `TBitArray`.  `moveAssign` is the destination
side of `operator=(TBitArray&&)` when the allocator `SupportsMove`: the
buffer-stealing `MoveOrCopy` overload adopts the source's buffer and
overwrites the destination's `NumBits`/`MaxBits` with the source's. -/
def applyBitOp (al : Allocator) (op : BitMutOp) (b : TBitArray) : TBitArray :=
  match op with
  | .init v n => b.init v n
  | .empty n => b.empty n
  | .reserve n => b.reserve al n
  | .reset => b.reset
  | .add v => (b.add al v).1
  | .addN v n => (b.addN al v n).1
  | .setRange i n v => b.setRange i n v
  | .removeAt i cnt => b.removeAt i cnt
  | .copyAssign other => b.copyAssign other
  | .moveAssign other => (TBitArray.moveOrCopyMove b other).1

/-- The `Check`ed preconditions under which the source performs each
bit-array operation; for the buffer-stealing move assignment the invariant
of the moved-from array is the precondition, exactly as on the `TArray`
side. -/
def bitOpOK (op : BitMutOp) (b : TBitArray) : Prop :=
  match op with
  | .setRange i n _ => i + n ≤ b.numBits
  | .removeAt i cnt => i + cnt ≤ b.numBits
  | .moveAssign other => other.numBits ≤ other.maxBits ∧ other.maxBits % 32 = 0
  | _ => True

/-! Helper lemmas about single-bit reads and writes on a word buffer. -/

theorem getBitW_eq_testBit (ws : List Nat) (i : Nat) :
    getBitW ws i = (ws.getD (i / 32) 0).testBit (i % 32) := by
  unfold getBitW
  rw [Nat.shiftLeft_eq, one_mul, Nat.and_two_pow]
  cases h : (ws.getD (i / 32) 0).testBit (i % 32) <;> simp [h]

theorem length_setBitW (ws : List Nat) (i : Nat) (b : Bool) :
    (setBitW ws i b).length = ws.length := by
  unfold setBitW
  exact List.length_set ws (i / 32) _

theorem getD_set_zero (ws : List Nat) (m j x : Nat) :
    (ws.set m x).getD j 0 = if m = j ∧ m < ws.length then x else ws.getD j 0 := by
  simp only [List.getD_eq_getElem?_getD, List.getElem?_set]
  by_cases h : m = j
  · subst h
    by_cases hl : m < ws.length
    · simp [hl]
    · simp [hl, List.getElem?_eq_none (by omega : ws.length ≤ m)]
  · simp [h]

theorem testBit_setWord_self (w k : Nat) (b : Bool) (hk : k < 32) :
    (if b then w ||| (1 <<< k) else w &&& (0xFFFFFFFF ^^^ (1 <<< k))).testBit k = b := by
  have h1 : (1 <<< k) = 2 ^ k := by rw [Nat.shiftLeft_eq, one_mul]
  have h2 : (0xFFFFFFFF : Nat) = 2 ^ 32 - 1 := by norm_num
  cases b
  · rw [if_neg (by simp), h1, h2, Nat.testBit_and, Nat.testBit_xor,
      Nat.testBit_two_pow_sub_one, Nat.testBit_two_pow_self]
    simp [hk]
  · rw [if_pos rfl, h1, Nat.testBit_or, Nat.testBit_two_pow_self]
    simp

theorem testBit_setWord_ne (w k k' : Nat) (b : Bool) (hne : k' ≠ k) (hk' : k' < 32) :
    (if b then w ||| (1 <<< k) else w &&& (0xFFFFFFFF ^^^ (1 <<< k))).testBit k' = w.testBit k' := by
  have h1 : (1 <<< k) = 2 ^ k := by rw [Nat.shiftLeft_eq, one_mul]
  have h2 : (0xFFFFFFFF : Nat) = 2 ^ 32 - 1 := by norm_num
  cases b
  · rw [if_neg (by simp), h1, h2, Nat.testBit_and, Nat.testBit_xor,
      Nat.testBit_two_pow_sub_one, Nat.testBit_two_pow]
    simp [hk', Ne.symm hne]
  · rw [if_pos rfl, h1, Nat.testBit_or, Nat.testBit_two_pow]
    simp [Ne.symm hne]

theorem getBitW_setBitW_self (ws : List Nat) (p : Nat) (b : Bool) (hp : p / 32 < ws.length) :
    getBitW (setBitW ws p b) p = b := by
  rw [getBitW_eq_testBit]
  unfold setBitW
  rw [getD_set_zero, if_pos ⟨rfl, hp⟩]
  exact testBit_setWord_self _ _ _ (Nat.mod_lt p (by omega))

theorem getBitW_setBitW_ne (ws : List Nat) (p q : Nat) (b : Bool) (hne : q ≠ p) :
    getBitW (setBitW ws p b) q = getBitW ws q := by
  rw [getBitW_eq_testBit, getBitW_eq_testBit]
  unfold setBitW
  rw [getD_set_zero]
  by_cases hcase : p / 32 = q / 32 ∧ p / 32 < ws.length
  · obtain ⟨hd, hlen⟩ := hcase
    rw [if_pos ⟨hd, hlen⟩, ← hd]
    have hm : q % 32 ≠ p % 32 := by
      intro hm
      apply hne
      have hp := Nat.div_add_mod p 32
      have hq := Nat.div_add_mod q 32
      omega
    exact testBit_setWord_ne _ _ _ _ hm (Nat.mod_lt q (by omega))
  · rw [if_neg hcase]

/-! The claims. -/

/-- Claim C2: for every `TArray` and element value `x`, `Add(x)` returns the
array's length before the call, grows the capacity through the allocator's
growth policy exactly when `length + 1 > capacity`, and reading the element
at the returned index immediately afterwards yields `x`. -/
theorem tarray_add_append_then_read {α : Type} (al : Allocator) (sz : Nat) (a : TArray α)
    (x : α) :
    (a.add al sz x).2 = a.num ∧
    (a.add al sz x).1.getItem ((a.add al sz x).2) = some x ∧
    (a.add al sz x).1.num = a.num + 1 ∧
    (a.add al sz x).1.arrayMax =
      (if a.arrayMax < a.num + 1 then al.calculateSlackGrow (a.num + 1) a.arrayMax sz
       else a.arrayMax) := by
  refine ⟨rfl, ?_, ?_, rfl⟩
  · show (a.data ++ [x]).get? a.data.length = some x
    exact List.get?_concat_length a.data x
  · show (a.data ++ [x]).length = a.data.length + 1
    simp

/-- Claim C3: for every array, element `x` and index `i ≤ length`,
`Insert(x, i)` followed by `RemoveAt(i)` restores the original element
sequence and the original length. -/
theorem tarray_insert_removeAt_inverse {α : Type} (al : Allocator) (sz : Nat) (a : TArray α)
    (x : α) (i : Nat) (h : i ≤ a.num) :
    ((a.insert al sz x i).1.removeAt al sz i).data = a.data ∧
    ((a.insert al sz x i).1.removeAt al sz i).num = a.num := by
  have hlen : (a.data.take i).length = i := by
    rw [List.length_take]
    have : i ≤ a.data.length := h
    omega
  have hdata : ((a.insert al sz x i).1.removeAt al sz i).data = a.data := by
    show (a.data.take i ++ x :: a.data.drop i).take i ++
        (a.data.take i ++ x :: a.data.drop i).drop (i + 1) = a.data
    rw [List.take_left' hlen]
    have hsplit : a.data.take i ++ x :: a.data.drop i = (a.data.take i ++ [x]) ++ a.data.drop i := by
      simp
    rw [hsplit, List.drop_left' (by simp [hlen])]
    exact List.take_append_drop i a.data
  refine ⟨hdata, ?_⟩
  show ((a.insert al sz x i).1.removeAt al sz i).data.length = a.data.length
  rw [hdata]

/-- Witness for C3 at a concrete input. -/
theorem tarray_insert_removeAt_inverse_witness :
    (1 ≤ (⟨[10, 20, 30], 3⟩ : TArray Nat).num) ∧
    (((⟨[10, 20, 30], 3⟩ : TArray Nat).insert exactAllocator 4 99 1).1.removeAt
        exactAllocator 4 1).data = [10, 20, 30] ∧
    (((⟨[10, 20, 30], 3⟩ : TArray Nat).insert exactAllocator 4 99 1).1.removeAt
        exactAllocator 4 1).num = (⟨[10, 20, 30], 3⟩ : TArray Nat).num :=
  ⟨by decide, tarray_insert_removeAt_inverse exactAllocator 4 ⟨[10, 20, 30], 3⟩ 99 1 (by decide)⟩

/-- Claim C6 (intended semantics): equal counts together with
`CompareItems` over `Num()` elements characterise element-wise equality of
the two arrays.  The committed body of `operator==` cannot mean anything at
all: it passes the undeclared identifier `Count` where `Num()` belongs. -/
theorem tarray_operatorEq_intended {α : Type} [DecidableEq α] (a b : TArray α) :
    TArray.operatorEqIntended a b = true ↔ a.num = b.num ∧ a.data = b.data := by
  unfold TArray.operatorEqIntended TArray.compareItems
  rw [Bool.and_eq_true, beq_iff_eq, decide_eq_true_eq]
  constructor
  · rintro ⟨h1, h2⟩
    refine ⟨h1, ?_⟩
    have ha : a.data.take a.num = a.data := List.take_length a.data
    have hb : b.data.take a.num = b.data := by
      have : a.num = b.data.length := h1
      rw [this]
      exact List.take_length b.data
    rw [ha, hb] at h2
    exact h2
  · rintro ⟨h1, h2⟩
    exact ⟨h1, by rw [h2]⟩

/-- Claim C7: after a buffer-stealing move (the `MoveOrCopy` overload chosen
when the allocator supports ownership transfer), the source array has length
0 and capacity 0 and is state-identical to a freshly default-constructed
container, so every operation on it behaves as on one. -/
theorem move_leaves_source_empty {α : Type} (a b : TArray α) (p q : TBitArray) :
    (TArray.moveOrCopyMove a b).2 = TArray.defaultCtor ∧
    (TArray.moveOrCopyMove a b).2.num = 0 ∧
    (TArray.moveOrCopyMove a b).2.arrayMax = 0 ∧
    (∀ (al : Allocator) (sz : Nat) (op : ArrayMutOp α),
      applyArrayOp al sz op (TArray.moveOrCopyMove a b).2 =
        applyArrayOp al sz op TArray.defaultCtor) ∧
    (TBitArray.moveOrCopyMove p q).2 = TBitArray.defaultCtor ∧
    (TBitArray.moveOrCopyMove p q).2.num = 0 ∧
    (TBitArray.moveOrCopyMove p q).2.maxBits = 0 ∧
    (∀ (al : Allocator) (op : BitMutOp),
      applyBitOp al op (TBitArray.moveOrCopyMove p q).2 =
        applyBitOp al op TBitArray.defaultCtor) :=
  ⟨rfl, rfl, rfl, fun _ _ _ => rfl, rfl, rfl, rfl, fun _ _ => rfl⟩

/-- Claim C8: the copying fallback of `MoveOrCopy` (chosen when allocators
differ or element types are not identical-or-bitwise-compatible) copies the
source's live range element-wise into the destination and leaves the source
array completely unmodified. -/
theorem moveOrCopy_copy_fallback {α : Type} (dst src : TArray α) (prevMax : Nat) :
    (TArray.moveOrCopyCopy dst src prevMax).2 = src ∧
    (TArray.moveOrCopyCopy dst src prevMax).1.data = src.data ∧
    (TArray.moveOrCopyCopy dst src prevMax).1.num = src.num ∧
    (∀ i, (TArray.moveOrCopyCopy dst src prevMax).1.getItem i = src.getItem i) := by
  have hdata : (TArray.copyToEmpty src.data prevMax 0 : TArray α).data = src.data := by
    unfold TArray.copyToEmpty
    split <;> rfl
  refine ⟨rfl, hdata, ?_, ?_⟩
  · show (TArray.copyToEmpty src.data prevMax 0 : TArray α).data.length = src.data.length
    rw [hdata]
  · intro i
    show (TArray.copyToEmpty src.data prevMax 0 : TArray α).data.get? i = src.data.get? i
    rw [hdata]

/-- Claim C9 counterexample: `SetRange` with zero count is not a silent
no-op for every index argument — its `Check(Index + Num <= NumBits)` runs
before the zero-count early return, so on an empty bit array a zero-count
`SetRange` at index 5 raises the fatal range diagnostic (modelled `none`)
instead of returning the unchanged state. -/
theorem zero_count_noops_counterexample :
    TBitArray.setRangeChecked ⟨[], 0, 0⟩ 5 0 true = none ∧
    TBitArray.setRangeChecked ⟨[], 0, 0⟩ 5 0 true ≠ some ⟨[], 0, 0⟩ := by decide

/-- Claim C9 (amended): `RemoveAtImpl` with zero count returns immediately
with no state change and no diagnostic for every container state and every
index; `SetRange` with zero count does so provided its index does not exceed
`numBits` (a larger index trips the range `Check` even with zero count); and
`Shrink` on an array whose capacity already equals its length returns with
no state change and no diagnostic. -/
theorem zero_count_noops_amended {α : Type} (al : Allocator) (sz : Nat) (a c : TArray α)
    (b : TBitArray) (i j : Nat) (s v : Bool)
    (hj : j ≤ b.numBits) (hc : c.arrayMax = c.data.length) :
    a.removeAtImplChecked al sz i 0 s = some a ∧
    b.setRangeChecked j 0 v = some b ∧
    c.shrinkChecked = some c := by
  refine ⟨rfl, ?_, ?_⟩
  · unfold TBitArray.setRangeChecked
    rw [if_pos (by omega)]
    unfold TBitArray.setRange
    rw [if_pos rfl]
  · unfold TArray.shrinkChecked
    rw [if_pos (by omega)]
    unfold TArray.shrink
    rw [if_neg (by omega)]

/-- Witness for the amended C9 at concrete inputs. -/
theorem zero_count_noops_witness :
    ((3 : Nat) ≤ (⟨[7], 5, 32⟩ : TBitArray).numBits ∧
      (⟨[1, 2], 2⟩ : TArray Nat).arrayMax = (⟨[1, 2], 2⟩ : TArray Nat).data.length) ∧
    (TArray.removeAtImplChecked exactAllocator 4 (⟨[9], 1⟩ : TArray Nat) 7 0 true =
        some ⟨[9], 1⟩ ∧
      TBitArray.setRangeChecked ⟨[7], 5, 32⟩ 3 0 false = some ⟨[7], 5, 32⟩ ∧
      TArray.shrinkChecked (⟨[1, 2], 2⟩ : TArray Nat) = some ⟨[1, 2], 2⟩) :=
  ⟨by decide,
    zero_count_noops_amended exactAllocator 4 ⟨[9], 1⟩ ⟨[1, 2], 2⟩ ⟨[7], 5, 32⟩ 7 3 true false
      (by decide) (by decide)⟩

/-- Claim C10: a suffix removal (`baseIndex + count == numBits`) on a
`TBitArray` modifies no storage word at all: the word list is unchanged, only
`numBits` drops by `count`, and every bit below the new `numBits` keeps its
exact previous value. -/
theorem tbitarray_removeAt_suffix_frame (b : TBitArray) (baseIndex cnt : Nat)
    (h : baseIndex + cnt = b.numBits) :
    (b.removeAt baseIndex cnt).data = b.data ∧
    (b.removeAt baseIndex cnt).numBits = b.numBits - cnt ∧
    (b.removeAt baseIndex cnt).maxBits = b.maxBits ∧
    (∀ i, i < b.numBits - cnt → (b.removeAt baseIndex cnt).getBit i = b.getBit i) := by
  unfold TBitArray.removeAt
  rw [if_neg (by omega)]
  exact ⟨rfl, rfl, rfl, fun i _ => rfl⟩

/-- Witness for C10 at a concrete input. -/
theorem tbitarray_removeAt_suffix_frame_witness :
    ((3 : Nat) + 2 = (⟨[21], 5, 32⟩ : TBitArray).numBits) ∧
    (((⟨[21], 5, 32⟩ : TBitArray).removeAt 3 2).data = (⟨[21], 5, 32⟩ : TBitArray).data ∧
      ((⟨[21], 5, 32⟩ : TBitArray).removeAt 3 2).numBits =
        (⟨[21], 5, 32⟩ : TBitArray).numBits - 2 ∧
      ((⟨[21], 5, 32⟩ : TBitArray).removeAt 3 2).maxBits = (⟨[21], 5, 32⟩ : TBitArray).maxBits ∧
      (∀ i, i < (⟨[21], 5, 32⟩ : TBitArray).numBits - 2 →
        ((⟨[21], 5, 32⟩ : TBitArray).removeAt 3 2).getBit i =
          (⟨[21], 5, 32⟩ : TBitArray).getBit i)) :=
  ⟨by decide, tbitarray_removeAt_suffix_frame ⟨[21], 5, 32⟩ 3 2 (by decide)⟩

/-- Claim C5: on a 40-bit all-false bit array, after `SetRange(5, 10, true)`
every bit in `[5, 15)` reads true, every other bit below 40 reads false,
`Find(true)` returns 5 and `FindLast(true)` returns 14. -/
theorem tbitarray_scenario40 :
    (∀ i, i < 15 → 5 ≤ i →
      ((TBitArray.defaultCtor.init false 40).setRange 5 10 true).getBit i = true) ∧
    (∀ i, i < 40 → i < 5 ∨ 15 ≤ i →
      ((TBitArray.defaultCtor.init false 40).setRange 5 10 true).getBit i = false) ∧
    ((TBitArray.defaultCtor.init false 40).setRange 5 10 true).find true = 5 ∧
    ((TBitArray.defaultCtor.init false 40).setRange 5 10 true).findLast true = 14 := by
  decide

theorem arrayOp_preserves_invariant {α : Type} (al : Allocator) (sz : Nat) (op : ArrayMutOp α)
    (a : TArray α) (ha : a.data.length ≤ a.arrayMax) (hok : arrayOpOK op a) :
    (applyArrayOp al sz op a).data.length ≤ (applyArrayOp al sz op a).arrayMax := by
  cases op with
  | add x =>
    have hg := al.grow_ge (a.data.length + 1) a.arrayMax sz
    simp only [applyArrayOp, TArray.add, TArray.emplace, List.length_append, List.length_cons,
      List.length_nil]
    split <;> omega
  | insert x i =>
    have hg := al.grow_ge (a.data.length + 1) a.arrayMax sz
    simp only [applyArrayOp, TArray.insert, List.length_append, List.length_cons,
      List.length_take, List.length_drop]
    simp only [arrayOpOK] at hok
    split <;> omega
  | removeAt i cnt s =>
    have hs := al.shrink_ge (a.data.length - cnt) a.arrayMax sz
    simp only [applyArrayOp, TArray.removeAtImpl]
    simp only [arrayOpOK] at hok
    split
    · exact ha
    · dsimp only
      split <;> simp only [List.length_append, List.length_take, List.length_drop] <;> omega
  | shrink =>
    simp only [applyArrayOp, TArray.shrink]
    split <;> (try dsimp only) <;> omega
  | copyAssign other =>
    simp only [applyArrayOp, TArray.copyToEmpty]
    split <;> (try dsimp only) <;> omega
  | moveAssign other =>
    simpa only [applyArrayOp] using hok

theorem empty_counters (b : TBitArray) (e : Nat) :
    (b.empty e).numBits = 0 ∧ (b.empty e).maxBits = divideAndRoundUp e 32 * 32 := by
  unfold TBitArray.empty
  dsimp only
  split
  · exact ⟨rfl, rfl⟩
  · refine ⟨rfl, ?_⟩
    dsimp only
    omega

theorem bitOp_preserves_invariant (al : Allocator) (bop : BitMutOp) (b : TBitArray)
    (hb1 : b.numBits ≤ b.maxBits) (hb2 : b.maxBits % 32 = 0) (hok : bitOpOK bop b) :
    (applyBitOp al bop b).numBits ≤ (applyBitOp al bop b).maxBits ∧
      (applyBitOp al bop b).maxBits % 32 = 0 := by
  cases bop with
  | init v n =>
    have he := empty_counters b n
    simp only [divideAndRoundUp] at he
    simp only [applyBitOp, TBitArray.init]
    split
    · refine ⟨?_, ?_⟩ <;> dsimp only <;> omega
    · exact ⟨by omega, by omega⟩
  | empty n =>
    have he := empty_counters b n
    simp only [divideAndRoundUp] at he
    simp only [applyBitOp]
    exact ⟨by omega, by omega⟩
  | reserve n =>
    have hg := al.grow_ge ((n + 32 - 1) / 32) ((b.maxBits + 32 - 1) / 32) 4
    simp only [applyBitOp, TBitArray.reserve, divideAndRoundUp]
    split
    · refine ⟨?_, ?_⟩ <;> dsimp only <;> omega
    · exact ⟨hb1, hb2⟩
  | reset =>
    simp only [applyBitOp, TBitArray.reset]
    exact ⟨Nat.zero_le _, hb2⟩
  | add v =>
    have hg := al.grow_ge ((b.numBits + 1 + 32 - 1) / 32) ((b.maxBits + 32 - 1) / 32) 4
    simp only [applyBitOp, TBitArray.add, TBitArray.reserve, divideAndRoundUp]
    split <;> refine ⟨?_, ?_⟩ <;> dsimp only <;> omega
  | addN v n =>
    have hg := al.grow_ge ((b.numBits + n + 32 - 1) / 32) ((b.maxBits + 32 - 1) / 32) 4
    simp only [applyBitOp, TBitArray.addN, TBitArray.reserve, divideAndRoundUp]
    split <;> refine ⟨?_, ?_⟩ <;> dsimp only <;> omega
  | setRange i n v =>
    simp only [applyBitOp, TBitArray.setRange]
    split
    · exact ⟨hb1, hb2⟩
    · exact ⟨hb1, hb2⟩
  | removeAt i cnt =>
    simp only [applyBitOp, TBitArray.removeAt]
    split <;> refine ⟨?_, ?_⟩ <;> dsimp only <;> omega
  | copyAssign other =>
    have he := empty_counters b other.numBits
    simp only [divideAndRoundUp] at he
    simp only [applyBitOp, TBitArray.copyAssign]
    split <;> refine ⟨?_, ?_⟩ <;> dsimp only <;> omega
  | moveAssign other =>
    simp only [applyBitOp, TBitArray.moveOrCopyMove]
    exact hok

/-- Claim C1: every mutating operation on a `TArray` (performed under its
`Check`ed preconditions, with the allocator meeting its capacity contract)
preserves `0 <= length <= capacity`, and every mutating operation on a
`TBitArray` preserves `0 <= numBits <= maxBits` and `maxBits % 32 == 0`;
consequently the invariants hold after every call of every sequence of
mutating operations (lower bounds are inherent in the `Nat` model of the
nonnegative size counters). -/
theorem container_invariants_preserved {α : Type} (al : Allocator) (sz : Nat)
    (op : ArrayMutOp α) (a : TArray α) (bop : BitMutOp) (b : TBitArray)
    (ha : a.num ≤ a.arrayMax) (hok : arrayOpOK op a)
    (hb : b.numBits ≤ b.maxBits ∧ b.maxBits % 32 = 0) (hbok : bitOpOK bop b) :
    ((applyArrayOp al sz op a).num ≤ (applyArrayOp al sz op a).arrayMax) ∧
    ((applyBitOp al bop b).numBits ≤ (applyBitOp al bop b).maxBits ∧
      (applyBitOp al bop b).maxBits % 32 = 0) :=
  ⟨arrayOp_preserves_invariant al sz op a ha hok,
    bitOp_preserves_invariant al bop b hb.1 hb.2 hbok⟩

/-- Witness for C1 at concrete inputs. -/
theorem container_invariants_preserved_witness :
    ((⟨[5], 2⟩ : TArray Nat).num ≤ (⟨[5], 2⟩ : TArray Nat).arrayMax ∧
      arrayOpOK (ArrayMutOp.add 7) (⟨[5], 2⟩ : TArray Nat) ∧
      (⟨[3], 20, 32⟩ : TBitArray).numBits ≤ (⟨[3], 20, 32⟩ : TBitArray).maxBits ∧
      (⟨[3], 20, 32⟩ : TBitArray).maxBits % 32 = 0 ∧
      bitOpOK (BitMutOp.add true) (⟨[3], 20, 32⟩ : TBitArray)) ∧
    (((applyArrayOp exactAllocator 4 (ArrayMutOp.add 7) ⟨[5], 2⟩).num ≤
        (applyArrayOp exactAllocator 4 (ArrayMutOp.add 7) ⟨[5], 2⟩).arrayMax) ∧
      ((applyBitOp exactAllocator (BitMutOp.add true) ⟨[3], 20, 32⟩).numBits ≤
          (applyBitOp exactAllocator (BitMutOp.add true) ⟨[3], 20, 32⟩).maxBits ∧
        (applyBitOp exactAllocator (BitMutOp.add true) ⟨[3], 20, 32⟩).maxBits % 32 = 0)) :=
  ⟨⟨by decide, trivial, by decide, by decide, trivial⟩,
    container_invariants_preserved exactAllocator 4 (ArrayMutOp.add 7) ⟨[5], 2⟩
      (BitMutOp.add true) ⟨[3], 20, 32⟩ (by decide) trivial ⟨by decide, by decide⟩ trivial⟩

/-- Invariant of the `RemoveAt` compaction loop after processing the read
indices `[0, r)`: the word buffer keeps its length, the write index equals
the number of surviving indices below `r`, every bit already written holds
the value of its source bit, and every bit at or above the write index is
still untouched. -/
theorem removeAtScan_loop (base cnt nb : Nat) (ws0 : List Nat) (hlen : nb ≤ 32 * ws0.length) :
    ∀ r, r ≤ nb → ∀ ws w,
      (List.range r).foldl (TBitArray.removeAtStep base cnt) (ws0, 0) = (ws, w) →
      ws.length = ws0.length ∧
      w = r - (min (base + cnt) r - min base r) ∧
      (∀ j, j < w → getBitW ws j = getBitW ws0 (if j < base then j else j + cnt)) ∧
      (∀ j, w ≤ j → getBitW ws j = getBitW ws0 j) := by
  intro r
  induction r with
  | zero =>
    intro _ ws w hfold
    simp only [List.range_zero, List.foldl_nil] at hfold
    injection hfold with hws hw
    subst hws
    subst hw
    exact ⟨rfl, by omega, fun j hj => absurd hj (by omega), fun j _ => rfl⟩
  | succ r ih =>
    intro hr ws w hfold
    rw [List.range_succ, List.foldl_append, List.foldl_cons, List.foldl_nil] at hfold
    rcases hprev : (List.range r).foldl (TBitArray.removeAtStep base cnt) (ws0, 0) with ⟨ws1, w1⟩
    rw [hprev] at hfold
    obtain ⟨ih1, ih2, ih3, ih4⟩ := ih (by omega) ws1 w1 hprev
    unfold TBitArray.removeAtStep at hfold
    dsimp only at hfold
    by_cases hs : r < base ∨ base + cnt ≤ r
    · rw [if_pos hs] at hfold
      by_cases hw : w1 = r
      · rw [if_neg (by omega)] at hfold
        injection hfold with hws hw2
        subst hws
        subst hw2
        refine ⟨ih1, by omega, ?_, fun j hj => ih4 j (by omega)⟩
        intro j hj
        by_cases hjlt : j < w1
        · exact ih3 j hjlt
        · have hjeq : j = w1 := by omega
          have hsrc : (if j < base then j else j + cnt) = j := by
            split
            · rfl
            · omega
          rw [hsrc]
          exact ih4 j (by omega)
      · rw [if_pos hw] at hfold
        injection hfold with hws hw2
        subst hw2
        have hw1r : w1 < r := by omega
        have hbc : base + cnt ≤ r := by omega
        have hrange : w1 / 32 < ws1.length := by
          rw [ih1]
          omega
        have hread : getBitW ws1 r = getBitW ws0 r := ih4 r (by omega)
        subst hws
        refine ⟨?_, by omega, ?_, ?_⟩
        · rw [length_setBitW]
          exact ih1
        · intro j hj
          by_cases hjlt : j < w1
          · rw [getBitW_setBitW_ne ws1 w1 j _ (by omega)]
            exact ih3 j hjlt
          · have hjeq : j = w1 := by omega
            have hsrc : (if j < base then j else j + cnt) = r := by
              split <;> omega
            rw [hsrc, hjeq, getBitW_setBitW_self ws1 w1 _ hrange, hread]
        · intro j hj
          rw [getBitW_setBitW_ne ws1 w1 j _ (by omega)]
          exact ih4 j (by omega)
    · rw [if_neg hs] at hfold
      injection hfold with hws hw2
      subst hws
      subst hw2
      exact ⟨ih1, by omega, ih3, ih4⟩

/-- Claim C4: for every `TBitArray` and every in-range `(baseIndex, count)`,
`RemoveAt(baseIndex, count)` decreases `numBits` by `count`, leaves every bit
below `baseIndex` with its old value, and gives every bit at `baseIndex <= i
< numBits - count` the old value of bit `i + count` (the survivors of a
non-suffix removal are compacted down by the bit-by-bit copying loop). -/
theorem tbitarray_removeAt_compacts (b : TBitArray) (base cnt : Nat)
    (h1 : base + cnt ≤ b.numBits) (h2 : b.numBits ≤ 32 * b.data.length) :
    (b.removeAt base cnt).numBits = b.numBits - cnt ∧
    (∀ i, i < base → (b.removeAt base cnt).getBit i = b.getBit i) ∧
    (∀ i, base ≤ i → i < b.numBits - cnt →
      (b.removeAt base cnt).getBit i = b.getBit (i + cnt)) := by
  unfold TBitArray.removeAt
  by_cases hsuf : base + cnt = b.numBits
  · rw [if_neg (by omega)]
    exact ⟨rfl, fun i _ => rfl, fun i hge hlt => absurd hlt (by omega)⟩
  · rw [if_pos hsuf]
    rcases hsc : (List.range b.numBits).foldl (TBitArray.removeAtStep base cnt) (b.data, 0) with ⟨ws, w⟩
    obtain ⟨hl1, hl2, hl3, hl4⟩ :=
      removeAtScan_loop base cnt b.numBits b.data h2 b.numBits (Nat.le_refl _) ws w hsc
    refine ⟨rfl, ?_, ?_⟩
    · intro i hi
      show getBitW (TBitArray.removeAtScan base cnt b.numBits b.data) i = getBitW b.data i
      unfold TBitArray.removeAtScan
      rw [hsc]
      have h3 := hl3 i (by omega)
      rw [if_pos hi] at h3
      exact h3
    · intro i hge hlt
      show getBitW (TBitArray.removeAtScan base cnt b.numBits b.data) i = getBitW b.data (i + cnt)
      unfold TBitArray.removeAtScan
      rw [hsc]
      have h3 := hl3 i (by omega)
      rw [if_neg (by omega)] at h3
      exact h3

/-- Witness for C4 at a concrete input (five bits `10101`, removing the two
middle bits at index 1). -/
theorem tbitarray_removeAt_compacts_witness :
    ((1 : Nat) + 2 ≤ (⟨[21], 5, 32⟩ : TBitArray).numBits ∧
      (⟨[21], 5, 32⟩ : TBitArray).numBits ≤ 32 * (⟨[21], 5, 32⟩ : TBitArray).data.length) ∧
    (((⟨[21], 5, 32⟩ : TBitArray).removeAt 1 2).numBits =
        (⟨[21], 5, 32⟩ : TBitArray).numBits - 2 ∧
      (∀ i, i < 1 →
        ((⟨[21], 5, 32⟩ : TBitArray).removeAt 1 2).getBit i =
          (⟨[21], 5, 32⟩ : TBitArray).getBit i) ∧
      (∀ i, 1 ≤ i → i < (⟨[21], 5, 32⟩ : TBitArray).numBits - 2 →
        ((⟨[21], 5, 32⟩ : TBitArray).removeAt 1 2).getBit i =
          (⟨[21], 5, 32⟩ : TBitArray).getBit (i + 2))) :=
  ⟨⟨by decide, by decide⟩, tbitarray_removeAt_compacts ⟨[21], 5, 32⟩ 1 2 (by decide) (by decide)⟩

end Nexus
